import Mathlib

/-!
Shallow embedding of the resilient streaming delivery core of the
`tg_multitopics_llm_bot` repository, and proofs settling the frozen claims
about it.  The embedded source files are `src/decorators/decorators.py`
(rate limiter, circuit breaker, resilient call executor),
`src/utils/formatter.py` (structured-text chunker), `src/core/bot_controller.py`
(streaming accumulator and media-group debouncer) and
`src/providers/perplexity.py` (empty-stream fallback).

Modelling conventions:
* Python `str` is modelled as `List Char` where the internal structure of the
  text matters (the formatter) and as Lean `String` where only content
  equality matters (streaming reconciliation, keys).
* Wall-clock time is `ℚ`.  A "back-to-back" call sequence is one in which the
  clock advances exactly by the `asyncio.sleep` calls the code itself performs.
* Python `int` is `ℤ` (or `ℕ` where the source value is a count).
* Awaited coroutine results are scripted: a list of per-attempt outcomes
  stands for the successive results of the wrapped call, and a list of
  rationals stands for the successive draws of `random.uniform(0, 0.5)`.
-/

namespace TgBot

/-- Default value of `Config.MAX_MESSAGE_LENGTH` (src/config/settings.py). -/
def MAX_MESSAGE_LENGTH : Nat := 4096

/-- Default value of `Config.SAFE_MESSAGE_LENGTH` (src/config/settings.py). -/
def SAFE_MESSAGE_LENGTH : Nat := 4000

/-- Default value of `Config.MIN_UPDATE_INTERVAL` (src/config/settings.py). -/
def MIN_UPDATE_INTERVAL : ℚ := 3

/-- Default value of `Config.INITIAL_RETRY_DELAY` (src/config/settings.py). -/
def INITIAL_RETRY_DELAY : ℚ := 1

/-- Default value of `Config.MAX_RETRIES` (src/config/settings.py). -/
def MAX_RETRIES : Nat := 5

/-- Per-scope circuit breaker state: the `CircuitBreakerState` dataclass of
src/decorators/decorators.py lines 24-29, with its zero-value defaults. -/
structure CircuitBreakerState where
  failure_count : Nat := 0
  last_failure_time : ℚ := 0
  is_open : Bool := false
  next_attempt_allowed : ℚ := 0
deriving DecidableEq, Repr

/-- Per-key rate limiter state: the `RateLimitState` dataclass of
src/decorators/decorators.py lines 32-37.  The `asyncio.Lock` field is not
modelled: all claims concern a single thread of control per key. -/
structure RateLimitState where
  last_request_time : ℚ := 0
  backoff_until : ℚ := 0
  history : List ℚ := []
deriving DecidableEq, Repr

/-- Last `n` elements of a list: Python slicing `l[-n:]`. -/
def lastN {α : Type} (n : Nat) (l : List α) : List α :=
  l.drop (l.length - n)

/-- One `_enforce_rate_limit(key)` call (decorators.py lines 258-287) under
the back-to-back timing model.  `now` is the wall clock on entry; the
returned rational is the wall clock after the call, which advances exactly
by the sleeps the function performs.  `min_upd` is `Config.MIN_UPDATE_INTERVAL`.
The backoff sleep happens only when the remainder exceeds 0.05 seconds; the
smoothing sleep pads the average inter-arrival interval of the last up to 5
recorded timestamps to `min_upd`; the new timestamp is then appended and the
history is bounded to its most recent 20 entries. -/
def enforce_rate_limit (min_upd : ℚ) (st : RateLimitState) (now : ℚ) :
    RateLimitState × ℚ :=
  let now1 := if now < st.backoff_until then
      (if 1/20 < st.backoff_until - now then st.backoff_until else now)
    else now
  let now2 :=
    if 2 ≤ st.history.length then
      let recent := lastN 5 st.history
      let avg := (recent.getLastD 0 - recent.headD 0) / ((recent.length : ℚ) - 1)
      if avg < min_upd then now1 + (min_upd - avg) else now1
    else now1
  ({ last_request_time := now2, backoff_until := st.backoff_until,
     history := lastN 20 (st.history ++ [now2]) }, now2)

/-- A run of `n` back-to-back `_enforce_rate_limit` calls on one key, from the
default-valued fresh state at wall clock 0.  The second component is the wall
clock after the last call. -/
def acquireRun (min_upd : ℚ) : Nat → RateLimitState × ℚ
  | 0 => ({}, 0)
  | n + 1 =>
    enforce_rate_limit min_upd (acquireRun min_upd n).1 (acquireRun min_upd n).2

/-- One `_apply_backoff(key, seconds)` call (decorators.py lines 290-294):
the key's backoff window is extended to `now + seconds`. -/
def apply_backoff (st : RateLimitState) (now seconds : ℚ) : RateLimitState :=
  { st with backoff_until := now + seconds }

/-- One `_record_circuit_failure(scope)` call at wall clock `now`
(decorators.py lines 297-306). -/
def record_circuit_failure (cb : CircuitBreakerState) (now : ℚ) :
    CircuitBreakerState :=
  let cb1 : CircuitBreakerState :=
    { cb with failure_count := cb.failure_count + 1, last_failure_time := now }
  if 3 ≤ cb1.failure_count then
    { cb1 with is_open := true, next_attempt_allowed := now + 60 }
  else cb1

/-- Result of one attempt of the wrapped coroutine, as discriminated by the
`except` clauses of `resilient_request.wrapper` (decorators.py lines 106-149):
normal return, `TelegramRetryAfter`, a `TelegramBadRequest` whose message
contains "message is not modified", any other `TelegramBadRequest`, or any
other exception. -/
inductive CallOutcome
  | success
  | retryAfter (retry_after : ℚ)
  | notModified
  | badRequest
  | failure
deriving DecidableEq, Repr

/-- Observable side effects of one `resilient_request.wrapper` invocation, in
order of occurrence: an `_enforce_rate_limit` suspension, an attempt of the
wrapped call, an `_apply_backoff` penalty, or an `asyncio.sleep`. -/
inductive Eff
  | enforceLimit (key : String)
  | callFunc
  | applyBackoff (key : String) (seconds : ℚ)
  | sleepFor (seconds : ℚ)
deriving DecidableEq, Repr

/-- How a `resilient_request.wrapper` invocation ends: the wrapped call's
result returned, `return True` on a "message is not modified" bad request,
the `RuntimeError` raised while the circuit is open, a re-raised
`TelegramBadRequest`, the last exception re-raised after max retries, or the
model artifact of the outcome script running out before the loop ends. -/
inductive WrapExit
  | returned
  | returnedTrue
  | raisedUnavailable
  | raisedBadRequest
  | raisedMaxRetries
  | ranOut
deriving DecidableEq, Repr

/-- Full result of one `resilient_request.wrapper` invocation: how it ended,
the scope's circuit state afterwards, the effect trace, and the wall clock
afterwards. -/
structure WrapResult where
  exitKind : WrapExit
  cb : CircuitBreakerState
  effs : List Eff
  clock : ℚ
deriving DecidableEq, Repr

/-- Python truthiness of the derived `chat_id` value. -/
def chatIdTruthy : Option Int → Bool
  | none => false
  | some c => c != 0

/-- The per-recipient rate-limit key `f"{scope}:{chat_id}"`. -/
def rateKey (scope : String) (c : Int) : String := scope ++ ":" ++ toString c

/-- The `while True` retry loop of `resilient_request.wrapper` (decorators.py
lines 103-149).  `outcomes` scripts the successive results of the wrapped
call, `jitters` scripts the successive draws of `random.uniform(0, 0.5)`,
`retryCount` is `retry_count`, and the constant backoff base is
`Config.INITIAL_RETRY_DELAY`.  Attempted calls, penalties and sleeps are
logged in order; the clock advances by the sleeps performed. -/
def retryLoop (scope : String) (useCB : Bool) (maxRetries : Nat)
    (chatId : Option Int) :
    List CallOutcome → List ℚ → Nat → CircuitBreakerState → ℚ → WrapResult
  | [], _, _, cb, now => ⟨.ranOut, cb, [], now⟩
  | o :: rest, jitters, retryCount, cb, now =>
    match o with
    | .success => ⟨.returned, if useCB then {} else cb, [.callFunc], now⟩
    | .notModified => ⟨.returnedTrue, cb, [.callFunc], now⟩
    | .badRequest => ⟨.raisedBadRequest, cb, [.callFunc], now⟩
    | .retryAfter n =>
      let wait := n + 1
      let backs := if chatIdTruthy chatId then
          [Eff.applyBackoff (rateKey scope ((chatId.getD 0))) wait] else []
      let r := retryLoop scope useCB maxRetries chatId rest jitters retryCount
          cb (now + wait)
      ⟨r.exitKind, r.cb, Eff.callFunc :: backs ++ Eff.sleepFor wait :: r.effs,
        r.clock⟩
    | .failure =>
      let rc := retryCount + 1
      let cb1 := if useCB then record_circuit_failure cb now else cb
      if maxRetries < rc then ⟨.raisedMaxRetries, cb1, [.callFunc], now⟩
      else
        let slp := INITIAL_RETRY_DELAY * 2 ^ (rc - 1) + jitters.headD 0
        let r := retryLoop scope useCB maxRetries chatId rest jitters.tail rc
            cb1 (now + slp)
        ⟨r.exitKind, r.cb, Eff.callFunc :: Eff.sleepFor slp :: r.effs, r.clock⟩

/-- One invocation of `resilient_request.wrapper` (decorators.py lines
68-151).  The per-recipient `chat_id` derived by argument introspection is a
parameter.  While the circuit is open and the cooldown has not elapsed, the
invocation raises at once with an empty effect trace; once the cooldown has
elapsed the circuit is marked half-open (`is_open := false`) and the call
proceeds.  `_enforce_rate_limit` runs only for a truthy `chat_id` in the
"telegram" scope; its suspension is logged as an effect (its internal sleeps
do not matter to the claims about the wrapper). -/
def wrapper (scope : String) (useCB : Bool) (maxRetries : Nat)
    (chatId : Option Int) (outcomes : List CallOutcome) (jitters : List ℚ)
    (cb : CircuitBreakerState) (now : ℚ) : WrapResult :=
  if useCB ∧ cb.is_open ∧ now < cb.next_attempt_allowed then
    ⟨.raisedUnavailable, cb, [], now⟩
  else
    let cb1 := if useCB ∧ cb.is_open then { cb with is_open := false } else cb
    let rl := if chatIdTruthy chatId ∧ scope = "telegram" then
        [Eff.enforceLimit (rateKey scope (chatId.getD 0))] else []
    let r := retryLoop scope useCB maxRetries chatId outcomes jitters 0 cb1 now
    ⟨r.exitKind, r.cb, rl ++ r.effs, r.clock⟩

/-- Python `str` for the formatter model: a list of characters. -/
abbrev Str := List Char

/-- Python `code_str.split("\n")` (formatter.py line 373): the list of lines,
empty lines included; splitting the empty string yields one empty line. -/
def splitNl : Str → List Str
  | [] => [[]]
  | c :: cs =>
    if c = '\n' then [] :: splitNl cs
    else
      match splitNl cs with
      | [] => [[c]]
      | l :: ls => (c :: l) :: ls

/-- Python `sep.join(parts)`. -/
def joinSep (sep : Str) : List Str → Str
  | [] => []
  | [l] => l
  | l :: ls => l ++ sep ++ joinSep sep ls

/-- Python `"\n".join(lines)` (formatter.py lines 384 and 397). -/
def joinNl (ls : List Str) : Str := joinSep ['\n'] ls

/-- Length of the code-fence overhead around a code chunk: the length of
three backticks, the language tag, two newlines and three closing backticks
(formatter.py line 360). -/
def fence_overhead (lang : Str) : Nat := lang.length + 8

/-- The split budget `max_code_size` of `_process_file_box` (formatter.py
line 361), as a Python int. -/
def max_code_size (maxMessageLength : Nat) (lang : Str) : Int :=
  (maxMessageLength : Int) - fence_overhead lang - 100

/-- Contribution of one line to `current_chunk_size`: `len(line) + 1`
(formatter.py line 378). -/
def lineSize (l : Str) : Int := (l.length : Int) + 1

/-- Total accumulated size of a group of lines. -/
def linesSize (g : List Str) : Int := (g.map lineSize).sum

/-- The greedy line-accumulation loop of `_process_file_box` (formatter.py
lines 374-399), returning the groups of lines that form the chunks.  `cur`
is `current_chunk_lines` and `curSize` is `current_chunk_size`: a line whose
addition would overflow a non-empty chunk closes it and starts the next
chunk with that line; the final non-empty chunk is closed at the end. -/
def chunkLoop (maxCode : Int) : List Str → List Str → Int → List (List Str)
  | [], cur, _ => if cur.isEmpty then [] else [cur]
  | line :: rest, cur, curSize =>
    if maxCode < curSize + lineSize line ∧ ¬ cur.isEmpty then
      cur :: chunkLoop maxCode rest [line] (lineSize line)
    else
      chunkLoop maxCode rest (cur ++ [line]) (curSize + lineSize line)

/-- Chunk contents produced by the splitting branch of `_process_file_box`:
each group of lines is rejoined with newlines (before the chunk is wrapped
in its own fenced block). -/
def split_code (maxCode : Int) (code : Str) : List Str :=
  (chunkLoop maxCode (splitNl code) [] 0).map joinNl

/-- Chunk contents of `_process_file_box` for a decoded code string
(formatter.py lines 363-399): a single chunk when the code fits the budget,
otherwise the line-boundary split. -/
def file_box_chunks (maxCode : Int) (code : Str) : List Str :=
  if (code.length : Int) ≤ maxCode then [code] else split_code maxCode code

/-- The blank-line separator `"\n\n"` of `_merge_into_messages`. -/
def blank : Str := ['\n', '\n']

/-- Loop body of `MessageFormatter._merge_into_messages` (formatter.py lines
429-469); `cur` is `current_message`.  Empty parts are skipped; a part
longer than the limit flushes the buffer and is emitted alone; a part that
fits after the buffer plus a blank line is appended; otherwise the buffer is
closed and the part starts the next one. -/
def mergeLoop (maxLen : Nat) : List Str → Str → List Str
  | [], cur => if cur.isEmpty then [] else [cur]
  | p :: rest, cur =>
    if p.isEmpty then mergeLoop maxLen rest cur
    else if maxLen < p.length then
      (if cur.isEmpty then [] else [cur]) ++ p :: mergeLoop maxLen rest []
    else if ¬ cur.isEmpty ∧ cur.length + 2 + p.length ≤ maxLen then
      mergeLoop maxLen rest (cur ++ blank ++ p)
    else if cur.isEmpty then mergeLoop maxLen rest p
    else cur :: mergeLoop maxLen rest p

/-- `MessageFormatter._merge_into_messages` (formatter.py lines 429-469). -/
def merge_into_messages (maxLen : Nat) (parts : List Str) : List Str :=
  mergeLoop maxLen parts []

/-- Fixed-size windows `escaped[i : i + safe]` for `i in range(0, len, safe)`
(formatter.py lines 549-551), with explicit fuel for termination (the fuel
`l.length` suffices whenever `1 ≤ safe`). -/
def windowsAux (safe : Nat) : Nat → Str → List Str
  | _, [] => []
  | 0, _ => []
  | fuel + 1, l => l.take safe :: windowsAux safe fuel (l.drop safe)

/-- Fixed-size windowing of a string at width `safe`. -/
def windows (safe : Nat) (l : Str) : List Str := windowsAux safe l.length l

/-- The fallback branch of `format_response_for_telegram` (formatter.py lines
544-552), applied to the already-escaped raw text. -/
def fallback_messages (maxLen safe : Nat) (escaped : Str) : List Str :=
  if escaped.length ≤ maxLen then [escaped] else windows safe escaped

/-- `MessageFormatter.format_response_for_telegram` (formatter.py lines
499-552).  The chunking pipeline of steps 1-4 (structure extraction, box
assembly, merge, validation) either produces messages and assets or raises;
it is passed as an `Except` value.  `escape` stands for the third-party
`telegramify_markdown.render.escape_markdown`.  On a pipeline exception the
fallback escapes the raw input and splits it into fixed-size windows, and no
assets are returned.  `A` is the asset type. -/
def format_response_for_telegram {A : Type} (escape : Str → Str)
    (pipeline : Except Unit (List Str × List A)) (raw : Str) :
    List Str × List A :=
  match pipeline with
  | .ok r => r
  | .error _ =>
    (fallback_messages MAX_MESSAGE_LENGTH SAFE_MESSAGE_LENGTH (escape raw), [])

/-- Language tag "python", as mapped from the "py" extension by
`EXTENSION_TO_TELEGRAM_LANG` (formatter.py lines 13 and 62-64). -/
def pythonLang : Str := ['p', 'y', 't', 'h', 'o', 'n']

/-- A single 3983-character line of code (no newline anywhere). -/
def longLine : Str := List.replicate 3983 'a'

/-- A reconciliation action of `BotController._update_messages` or the
terminal edit of `_finalize` (bot_controller.py): an edit of, or a newly
sent, outbound message, tagged with the segment index it serves and the
telegram message id it targets. -/
inductive Act
  | edit (idx : Nat) (msgId : Nat) (content : String)
  | send (idx : Nat) (msgId : Nat) (content : String)
deriving DecidableEq, Repr

/-- Segment index of an action. -/
def actIdx : Act → Nat
  | .edit i _ _ => i
  | .send i _ _ => i

/-- Python dict lookup `d.get(k)`, on an insertion-ordered association
list. -/
def dictGet {κ ν : Type} [BEq κ] : List (κ × ν) → κ → Option ν
  | [], _ => none
  | e :: es, k => if e.1 == k then some e.2 else dictGet es k

/-- Python dict assignment `d[k] = v`: replace in place, or append a new
key at the end (insertion order). -/
def dictSet {κ ν : Type} [BEq κ] : List (κ × ν) → κ → ν → List (κ × ν)
  | [], k, v => [(k, v)]
  | e :: es, k, v => if e.1 == k then (k, v) :: es else e :: dictSet es k v

/-- Python dict `d.pop(k)`: drop the key's entry. -/
def dictPop {κ ν : Type} [BEq κ] (d : List (κ × ν)) (k : κ) : List (κ × ν) :=
  d.filter (fun e => ¬ e.1 == k)

/-- The `sent_messages` dict: segment index to (telegram message id,
last-sent content), as an insertion-ordered association list. -/
abbrev SentMap := List (Nat × Nat × String)

/-- Dict lookup `sent_messages[i]`. -/
def lookupSent (sent : SentMap) (i : Nat) : Option (Nat × String) :=
  dictGet sent i

/-- Dict assignment `sent_messages[i] = v`. -/
def setSent (sent : SentMap) (i : Nat) (v : Nat × String) : SentMap :=
  dictSet sent i v

/-- Loop body of `BotController._update_messages` (bot_controller.py lines
380-417): walk the freshly formatted message list with its index.  Index 0
edits the anchor ("Thinking...") message when absent from `sent_messages` or
changed; a later index already present is edited only when its content
changed; a new trailing index is sent as a new message (ids allocated from
`nextId`).  Edits and sends are modelled as succeeding.  Returns the updated
map, the actions in order, and the next fresh id. -/
def updLoop (anchorId : Nat) : List String → Nat → SentMap → Nat →
    SentMap × List Act × Nat
  | [], _, sent, nextId => (sent, [], nextId)
  | m :: rest, i, sent, nextId =>
    if i = 0 then
      match lookupSent sent 0 with
      | some (_, c) =>
        if c ≠ m then
          let sent1 := setSent sent 0 (anchorId, m)
          let r := updLoop anchorId rest (i + 1) sent1 nextId
          (r.1, Act.edit 0 anchorId m :: r.2.1, r.2.2)
        else
          updLoop anchorId rest (i + 1) sent nextId
      | none =>
        let sent1 := setSent sent 0 (anchorId, m)
        let r := updLoop anchorId rest (i + 1) sent1 nextId
        (r.1, Act.edit 0 anchorId m :: r.2.1, r.2.2)
    else
      match lookupSent sent i with
      | some (mid, c) =>
        if m ≠ c then
          let sent1 := setSent sent i (mid, m)
          let r := updLoop anchorId rest (i + 1) sent1 nextId
          (r.1, Act.edit i mid m :: r.2.1, r.2.2)
        else updLoop anchorId rest (i + 1) sent nextId
      | none =>
        let sent1 := setSent sent i (nextId, m)
        let r := updLoop anchorId rest (i + 1) sent1 (nextId + 1)
        (r.1, Act.send i nextId m :: r.2.1, r.2.2)

/-- `BotController._update_messages` (bot_controller.py lines 371-417): the
full accumulated text is re-formatted and the message list reconciled
against `sent_messages`. -/
def update_messages (fmt : String → List String) (anchorId : Nat)
    (acc : String) (sent : SentMap) (nextId : Nat) :
    SentMap × List Act × Nat :=
  updLoop anchorId (fmt acc) 0 sent nextId

/-- Result of one `_generate_and_stream_response` drive on a stream that
raises nothing: the final `sent_messages`, the outbound actions in order,
the accumulated text, and the content stored on the assistant message. -/
structure StreamResult where
  sent : SentMap
  acts : List Act
  accumulated : String
  savedContent : String
deriving DecidableEq, Repr

/-- Fragment-consuming loop of `_generate_and_stream_response`
(bot_controller.py lines 336-342).  Each fragment carries its arrival time;
a flush runs when at least 2 seconds elapsed since the last flush and the
accumulated text exceeds 50 characters. -/
def streamLoop (fmt : String → List String) (anchorId : Nat) :
    List (String × ℚ) → String → ℚ → SentMap → Nat →
    SentMap × List Act × Nat × String
  | [], acc, _, sent, nextId => (sent, [], nextId, acc)
  | (chunk, t) :: rest, acc, lastUpd, sent, nextId =>
    let acc1 := acc ++ chunk
    if 2 ≤ t - lastUpd ∧ 50 < acc1.length then
      let u := update_messages fmt anchorId acc1 sent nextId
      let r := streamLoop fmt anchorId rest acc1 t u.1 u.2.2
      (r.1, u.2.1 ++ r.2.1, r.2.2)
    else
      streamLoop fmt anchorId rest acc1 lastUpd sent nextId

/-- The terminal edit of `BotController._finalize` (bot_controller.py lines
419-459): the full text is re-formatted and, when the last message index was
already sent, that message is re-edited (now carrying the keyboard).  An
empty message list gives `last_idx = -1`, which is never a dict key. -/
def finalize_acts (fmt : String → List String) (sent : SentMap)
    (full : String) : List Act :=
  let messages := fmt full
  let lastIdx : Int := (messages.length : Int) - 1
  if 0 ≤ lastIdx then
    match lookupSent sent lastIdx.toNat, messages.getLast? with
    | some (mid, _), some m => [Act.edit lastIdx.toNat mid m]
    | _, _ => []
  else []

/-- `BotController._generate_and_stream_response` (bot_controller.py lines
293-358) on a stream that yields `frags` and raises nothing: consume the
stream with periodic flushes, flush once more if any text accumulated, store
the accumulated text on the assistant message, then run `_finalize`.
`t0` is the wall clock when streaming starts (`last_update_time`). -/
def streamRun (fmt : String → List String) (anchorId : Nat)
    (frags : List (String × ℚ)) (t0 : ℚ) : StreamResult :=
  let r := streamLoop fmt anchorId frags "" t0 [] (anchorId + 1)
  let acc := r.2.2.2
  let final :=
    if acc ≠ "" then
      let u := update_messages fmt anchorId acc r.1 r.2.2.1
      (u.1, r.2.1 ++ u.2.1)
    else (r.1, r.2.1)
  { sent := final.1, acts := final.2 ++ finalize_acts fmt final.1 acc,
    accumulated := acc, savedContent := acc }

/-- Empty-stream fallback of the Perplexity generation source
(src/providers/perplexity.py lines 159 and 207-210): if the response stream
yielded nothing, the provider itself yields a fallback chunk. -/
def perplexity_yielded (chunks : List String) : List String :=
  if chunks.isEmpty then ["No response received (Stream ended empty)"]
  else chunks

/-- One buffered media group: the entry of `_media_group_buffer[mg_id]`
(bot_controller.py lines 143-149).  The pending flush timer is identified by
a generation number together with its scheduled fire time; the stored anchor
message is omitted (no claim refers to it). -/
structure MediaGroupEntry (I : Type) where
  files : List I
  caption : Option String
  task : Option (Nat × ℚ)
deriving DecidableEq

/-- State of the media-group debouncer: the buffer dict, a fresh-generation
counter for timers, and the log of flushed groups (key, items in arrival
order, adopted caption). -/
structure DebounceState (I : Type) where
  buffer : List (String × MediaGroupEntry I) := []
  nextGen : Nat := 0
  flushed : List (String × List I × Option String) := []
deriving DecidableEq

/-- Dict lookup in the media-group buffer. -/
def lookupGroup {I : Type} (b : List (String × MediaGroupEntry I))
    (key : String) : Option (MediaGroupEntry I) :=
  dictGet b key

/-- Dict assignment in the media-group buffer. -/
def setGroup {I : Type} (b : List (String × MediaGroupEntry I)) (key : String)
    (v : MediaGroupEntry I) : List (String × MediaGroupEntry I) :=
  dictSet b key v

/-- Dict `pop` of a key from the media-group buffer. -/
def eraseGroup {I : Type} (b : List (String × MediaGroupEntry I))
    (key : String) : List (String × MediaGroupEntry I) :=
  dictPop b key

/-- `BotController._buffer_media_group` at wall clock `t` (bot_controller.py
lines 135-161): create the entry if absent, append the item, adopt the first
caption seen, cancel any pending timer and start a fresh one scheduled 1.5
seconds out. -/
def buffer_media_group {I : Type} (st : DebounceState I) (key : String)
    (item : I) (caption : Option String) (t : ℚ) : DebounceState I :=
  let e := (lookupGroup st.buffer key).getD ⟨[], none, none⟩
  let e1 : MediaGroupEntry I :=
    { files := e.files ++ [item]
      caption := match caption, e.caption with
        | some c, none => some c
        | _, _ => e.caption
      task := some (st.nextGen, t + 3/2) }
  { st with buffer := setGroup st.buffer key e1, nextGen := st.nextGen + 1 }

/-- `BotController._finalize_media_group` (bot_controller.py lines 171-192):
a key that is no longer buffered is a no-op; otherwise the group is popped
from the buffer and flushed downstream. -/
def finalize_media_group {I : Type} (st : DebounceState I) (key : String) :
    DebounceState I :=
  match lookupGroup st.buffer key with
  | none => st
  | some e =>
    { st with buffer := eraseGroup st.buffer key,
              flushed := st.flushed ++ [(key, e.files, e.caption)] }

/-- Completion of a `_media_group_timer` task that was created with
generation `g` (bot_controller.py lines 163-169): a timer cancelled by a
later `_buffer_media_group` call (its generation is no longer the entry's
current task) does nothing; a live timer finalizes the group. -/
def timer_fire {I : Type} (st : DebounceState I) (key : String) (g : Nat) :
    DebounceState I :=
  match lookupGroup st.buffer key with
  | some e =>
    match e.task with
    | some (g', _) => if g' = g then finalize_media_group st key else st
    | none => st
  | none => st

/-- An externally observable event of the debouncer: an item arrival (with
optional caption) or a timer completion, each stamped with its wall-clock
time. -/
inductive MgEv (I : Type)
  | add (key : String) (item : I) (caption : Option String) (t : ℚ)
  | fire (key : String) (g : Nat) (t : ℚ)

/-- Run a sequence of debouncer events. -/
def runMgEvents {I : Type} : DebounceState I → List (MgEv I) → DebounceState I
  | st, [] => st
  | st, .add key item cap t :: rest =>
    runMgEvents (buffer_media_group st key item cap t) rest
  | st, .fire key g _ :: rest => runMgEvents (timer_fire st key g) rest

/-- Well-formedness of a debouncer state: every pending timer generation was
drawn from the fresh-generation counter. -/
def gensBounded {I : Type} (st : DebounceState I) : Prop :=
  ∀ e ∈ st.buffer, ∀ g ft, e.2.task = some (g, ft) → g < st.nextGen

/-- C10: a "message is not modified" bad request returns success (True) at
once, leaving the scope's circuit state completely untouched — unlike the
ordinary success path, which (second conjunct) resets the breaker to the
fresh zero-valued state. -/
theorem not_modified_frame_effect :
    (∀ scope useCB maxRetries chatId rest jitters (cb : CircuitBreakerState)
        now, cb.is_open = false →
      wrapper scope useCB maxRetries chatId (.notModified :: rest) jitters cb
          now =
        ⟨.returnedTrue, cb,
          (if chatIdTruthy chatId ∧ scope = "telegram" then
            [Eff.enforceLimit (rateKey scope (chatId.getD 0))] else [])
          ++ [Eff.callFunc], now⟩)
    ∧ (∀ scope maxRetries chatId rest jitters (cb : CircuitBreakerState) now,
      cb.is_open = false →
      (wrapper scope true maxRetries chatId (.success :: rest) jitters cb
          now).cb = {}) := by
  constructor
  · intro scope useCB maxRetries chatId rest jitters cb now hopen
    simp [wrapper, retryLoop, hopen]
  · intro scope maxRetries chatId rest jitters cb now hopen
    simp [wrapper, retryLoop, hopen]

/-- Witness for C10 at a concrete input. -/
theorem not_modified_frame_effect_witness :
    wrapper "telegram" true 3 (some 5) [.notModified] []
        ⟨2, 1, false, 0⟩ 0 =
      ⟨.returnedTrue, ⟨2, 1, false, 0⟩,
        [Eff.enforceLimit "telegram:5", Eff.callFunc], 0⟩
    ∧ (wrapper "telegram" true 3 (some 5) [.success] []
        ⟨2, 1, false, 0⟩ 0).cb = {} := by
  constructor
  · have h := not_modified_frame_effect.1 "telegram" true 3 (some 5) [] []
      ⟨2, 1, false, 0⟩ 0 rfl
    simpa [chatIdTruthy, rateKey] using h
  · exact not_modified_frame_effect.2 "telegram" 3 (some 5) [] []
      ⟨2, 1, false, 0⟩ 0 rfl

/-- C1: the circuit-breaker state machine of `resilient_request`.
(1) A third consecutive recorded failure while closed opens the circuit and
sets `next_attempt_allowed` to the failure's wall clock plus 60 seconds;
(2) concretely, a fresh scope driven through three failing attempts (zero
jitter) ends open with `next_attempt_allowed` = (time of 3rd failure) + 60;
(3) while open and before the cooldown, an invocation raises "temporarily
unavailable" with an empty effect trace — the wrapped call is not attempted
and the rate limiter is not touched; (4) once the cooldown has elapsed the
next invocation proceeds as a probe and attempts the wrapped call; (5) any
invocation that returns normally leaves the scope reset to the fresh closed
state with `failure_count = 0`. -/
theorem circuit_breaker_state_machine :
    (∀ (cb : CircuitBreakerState) now, cb.failure_count = 2 →
      record_circuit_failure cb now = ⟨3, now, true, now + 60⟩)
    ∧ (wrapper "llm" true 5 none [.failure, .failure, .failure] [0, 0, 0]
        {} 0).cb = ⟨3, 3, true, 63⟩
    ∧ (∀ scope useCB maxRetries chatId outcomes jitters
        (cb : CircuitBreakerState) now,
        useCB = true → cb.is_open = true → now < cb.next_attempt_allowed →
        wrapper scope useCB maxRetries chatId outcomes jitters cb now
          = ⟨.raisedUnavailable, cb, [], now⟩)
    ∧ (∀ scope maxRetries chatId o outcomes jitters
        (cb : CircuitBreakerState) now,
        cb.is_open = true → cb.next_attempt_allowed ≤ now →
        Eff.callFunc ∈ (wrapper scope true maxRetries chatId (o :: outcomes)
          jitters cb now).effs)
    ∧ (∀ scope maxRetries chatId outcomes jitters rc
        (cb : CircuitBreakerState) now,
        (retryLoop scope true maxRetries chatId outcomes jitters rc cb
          now).exitKind = .returned →
        (retryLoop scope true maxRetries chatId outcomes jitters rc cb
          now).cb = {}) := by
  refine ⟨?_, ?_, ?_, ?_, ?_⟩
  · intro cb now h
    simp [record_circuit_failure, h]
  · norm_num [wrapper, retryLoop, record_circuit_failure, chatIdTruthy,
      INITIAL_RETRY_DELAY]
  · intro scope useCB maxRetries chatId outcomes jitters cb now hcb hopen hlt
    simp [wrapper, hcb, hopen, hlt]
  · intro scope maxRetries chatId o outcomes jitters cb now hopen hle
    rw [wrapper, if_neg (by simp [hopen, not_lt.mpr hle])]
    refine List.mem_append.mpr (Or.inr ?_)
    cases o <;> (simp [retryLoop]; try (split <;> simp))
  · intro scope maxRetries chatId outcomes jitters rc cb now
    induction outcomes generalizing jitters rc cb now with
    | nil => simp [retryLoop]
    | cons o rest ih =>
      cases o with
      | success => simp [retryLoop]
      | notModified => simp [retryLoop]
      | badRequest => simp [retryLoop]
      | retryAfter n =>
        intro h
        simp only [retryLoop] at h ⊢
        exact ih _ _ _ _ h
      | failure =>
        intro h
        simp only [retryLoop, if_true, reduceIte] at h ⊢
        by_cases hm : maxRetries < rc + 1
        · rw [if_pos hm] at h
          simp at h
        · rw [if_neg hm] at h ⊢
          exact ih _ _ _ _ h

/-- Witness for C1 at concrete inputs. -/
theorem circuit_breaker_state_machine_witness :
    record_circuit_failure ⟨2, 0, false, 0⟩ 10 = ⟨3, 10, true, 70⟩
    ∧ wrapper "tg" true 5 none [] [] ⟨3, 3, true, 63⟩ 10
        = ⟨.raisedUnavailable, ⟨3, 3, true, 63⟩, [], 10⟩
    ∧ Eff.callFunc ∈ (wrapper "tg" true 5 none [.success] []
        ⟨3, 3, true, 63⟩ 100).effs
    ∧ (retryLoop "tg" true 5 none [.success] [] 0 ⟨1, 0, false, 0⟩ 0).cb
        = {} := by
  refine ⟨by
      have h := circuit_breaker_state_machine.1 ⟨2, 0, false, 0⟩ 10 rfl
      norm_num at h ⊢
      exact h,
    circuit_breaker_state_machine.2.2.1 "tg" true 5 none [] []
      ⟨3, 3, true, 63⟩ 10 rfl rfl (by norm_num),
    circuit_breaker_state_machine.2.2.2.1 "tg" 5 none .success [] []
      ⟨3, 3, true, 63⟩ 100 rfl (by norm_num),
    circuit_breaker_state_machine.2.2.2.2 "tg" 5 none [.success] [] 0
      ⟨1, 0, false, 0⟩ 0 rfl⟩

/-- C2: a retry-after signal from the callee.  (1) With a derived recipient
key, a `TelegramRetryAfter(n)` outcome logs the attempt, applies a backoff
penalty of `n + 1` seconds to the recipient's rate-limit key, sleeps `n + 1`
seconds, and re-enters the loop on the remaining outcomes with the retry
counter unchanged; (2) `_apply_backoff` extends the key's window to
`now + (n + 1)`; (3) concretely, a "retry after 5 seconds" signal followed
by success returns normally even with a retry budget of zero, with a single
sleep of 6 seconds and exactly two attempts of the wrapped call (one retry,
never counted); (4) by contrast, a generic failure with a zero budget
exhausts the retries at once. -/
theorem retry_after_penalty :
    (∀ scope useCB maxRetries (c : Int) rest jitters rc
        (cb : CircuitBreakerState) now n, c ≠ 0 →
      retryLoop scope useCB maxRetries (some c) (.retryAfter n :: rest)
          jitters rc cb now =
        ⟨(retryLoop scope useCB maxRetries (some c) rest jitters rc cb
            (now + (n + 1))).exitKind,
         (retryLoop scope useCB maxRetries (some c) rest jitters rc cb
            (now + (n + 1))).cb,
         Eff.callFunc :: Eff.applyBackoff (rateKey scope c) (n + 1)
           :: Eff.sleepFor (n + 1)
           :: (retryLoop scope useCB maxRetries (some c) rest jitters rc cb
             (now + (n + 1))).effs,
         (retryLoop scope useCB maxRetries (some c) rest jitters rc cb
            (now + (n + 1))).clock⟩)
    ∧ (∀ (st : RateLimitState) now n,
        (apply_backoff st now (n + 1)).backoff_until = now + (n + 1))
    ∧ (∀ scope (c : Int) jitters (cb : CircuitBreakerState) now, c ≠ 0 →
        cb.is_open = false →
        (wrapper scope true 0 (some c) [.retryAfter 5, .success] jitters cb
            now).exitKind = .returned
        ∧ ((wrapper scope true 0 (some c) [.retryAfter 5, .success] jitters
            cb now).effs.filter
              (fun e => match e with | Eff.sleepFor _ => true | _ => false))
            = [Eff.sleepFor 6]
        ∧ ((wrapper scope true 0 (some c) [.retryAfter 5, .success] jitters
            cb now).effs.countP (fun e => e == Eff.callFunc)) = 2)
    ∧ (∀ scope (c : Int) jitters (cb : CircuitBreakerState) now,
        cb.is_open = false →
        (wrapper scope true 0 (some c) [.failure, .success] jitters cb
            now).exitKind = .raisedMaxRetries) := by
  refine ⟨?_, ?_, ?_, ?_⟩
  · intro scope useCB maxRetries c rest jitters rc cb now n hc
    simp [retryLoop, chatIdTruthy, hc]
  · intro st now n
    simp [apply_backoff]
  · intro scope c jitters cb now hc hopen
    have h6 : (5 : ℚ) + 1 = 6 := by norm_num
    by_cases hs : scope = "telegram" <;>
      simp [wrapper, retryLoop, chatIdTruthy, hc, hopen, hs, h6,
        List.filter_append, List.countP_append, List.countP_cons]
  · intro scope c jitters cb now hopen
    by_cases hs : scope = "telegram" <;>
      simp [wrapper, retryLoop, hopen, hs]

/-- Witness for C2 at a concrete input. -/
theorem retry_after_penalty_witness :
    retryLoop "telegram" true 3 (some 9) [.retryAfter 5, .success] [] 0 {} 0 =
      ⟨(retryLoop "telegram" true 3 (some 9) [.success] [] 0 {}
          (0 + (5 + 1))).exitKind,
       (retryLoop "telegram" true 3 (some 9) [.success] [] 0 {}
          (0 + (5 + 1))).cb,
       Eff.callFunc :: Eff.applyBackoff (rateKey "telegram" 9) (5 + 1)
         :: Eff.sleepFor (5 + 1)
         :: (retryLoop "telegram" true 3 (some 9) [.success] [] 0 {}
           (0 + (5 + 1))).effs,
       (retryLoop "telegram" true 3 (some 9) [.success] [] 0 {}
          (0 + (5 + 1))).clock⟩
    ∧ (apply_backoff {} 0 (5 + 1)).backoff_until = 0 + (5 + 1)
    ∧ (wrapper "telegram" true 0 (some 9) [.retryAfter 5, .success] [] {}
        0).exitKind = .returned
    ∧ (wrapper "telegram" true 0 (some 9) [.failure, .success] [] {}
        0).exitKind = .raisedMaxRetries := by
  refine ⟨retry_after_penalty.1 "telegram" true 3 9 [.success] [] 0 {} 0 5
      (by norm_num),
    retry_after_penalty.2.1 {} 0 5,
    (retry_after_penalty.2.2.1 "telegram" 9 [] {} 0 (by norm_num) rfl).1,
    retry_after_penalty.2.2.2 "telegram" 9 [] {} 0 rfl⟩

/-- Helper: the last element (with default) of a non-empty list is a member. -/
theorem getLastD_mem_of_ne_nil {α : Type} (l : List α) (d : α) (hl : l ≠ []) :
    l.getLastD d ∈ l := by
  match l, hl with
  | a :: t, _ =>
    rw [List.getLastD_cons]
    exact List.getLastD_mem_cons t a

/-- Helper: in a non-empty list that is pairwise ordered, the first element
is at most the last. -/
theorem headD_le_getLastD (l : List ℚ) (hl : l ≠ [])
    (hs : l.Pairwise (· ≤ ·)) : l.headD 0 ≤ l.getLastD 0 := by
  match l, hl with
  | a :: t, _ =>
    simp only [List.headD_cons]
    have hmem : (a :: t).getLastD 0 ∈ a :: t := getLastD_mem_of_ne_nil _ _ (by simp)
    rcases List.mem_cons.mp hmem with h | h
    · rw [h]
    · exact (List.pairwise_cons.mp hs).1 _ h

/-- Helper: one `_enforce_rate_limit` step from a zero-backoff state whose
history is sorted below the clock preserves those facts, never moves the
clock backwards, and — whenever at least two timestamps were already
recorded — records its new timestamp at least `m` after the oldest timestamp
of the inspected window of up to 5 entries. -/
theorem enforce_rate_limit_step (m : ℚ) (st : RateLimitState) (now : ℚ)
    (hb : st.backoff_until = 0) (hnow : 0 ≤ now)
    (hsort : st.history.Pairwise (· ≤ ·))
    (hle : ∀ x ∈ st.history, x ≤ now) :
    now ≤ (enforce_rate_limit m st now).2
    ∧ (enforce_rate_limit m st now).1.backoff_until = 0
    ∧ (enforce_rate_limit m st now).1.history.Pairwise (· ≤ ·)
    ∧ (∀ x ∈ (enforce_rate_limit m st now).1.history,
        x ≤ (enforce_rate_limit m st now).2)
    ∧ (2 ≤ st.history.length →
        (lastN 5 st.history).headD 0 + m ≤ (enforce_rate_limit m st now).2) := by
  have hnot : ¬ now < st.backoff_until := by rw [hb]; exact not_lt.mpr hnow
  set recent := lastN 5 st.history with hrec
  set avg : ℚ :=
    (recent.getLastD 0 - recent.headD 0) / ((recent.length : ℚ) - 1) with havg
  set y : ℚ := if 2 ≤ st.history.length then
      (if avg < m then now + (m - avg) else now) else now with hy
  have hstep : enforce_rate_limit m st now =
      ({ last_request_time := y, backoff_until := st.backoff_until,
         history := lastN 20 (st.history ++ [y]) }, y) := by
    rw [enforce_rate_limit]
    simp only [hnot, if_false, ← hrec, ← havg, ← hy]
  have hny : now ≤ y := by
    rw [hy]
    split
    · split
      · linarith
      · exact le_refl now
    · exact le_refl now
  have hwindow : 2 ≤ st.history.length →
      (lastN 5 st.history).headD 0 + m ≤ y := by
    intro hlen
    have hrlen : 2 ≤ recent.length := by
      rw [hrec, lastN, List.length_drop]
      omega
    have hrne : recent ≠ [] := by
      intro h
      rw [h] at hrlen
      simp at hrlen
    have hrsort : recent.Pairwise (· ≤ ·) :=
      hsort.sublist (List.drop_sublist _ _)
    have hhl : recent.headD 0 ≤ recent.getLastD 0 :=
      headD_le_getLastD recent hrne hrsort
    have hlast_le : recent.getLastD 0 ≤ now :=
      hle _ (List.drop_subset _ _ (getLastD_mem_of_ne_nil _ _ hrne))
    have hd1 : (1 : ℚ) ≤ (recent.length : ℚ) - 1 := by
      have : (2 : ℚ) ≤ (recent.length : ℚ) := by exact_mod_cast hrlen
      linarith
    have havg_le : avg ≤ recent.getLastD 0 - recent.headD 0 := by
      rw [havg]
      exact div_le_self (by linarith) hd1
    rw [hy, if_pos hlen, ← hrec]
    split
    · linarith
    · have hma : m ≤ avg := not_lt.mp (by assumption)
      linarith
  refine ⟨by rw [hstep]; exact hny, by rw [hstep]; exact hb, ?_, ?_, ?_⟩
  · rw [hstep]
    refine List.Pairwise.sublist (List.drop_sublist _ _) ?_
    rw [List.pairwise_append]
    refine ⟨hsort, List.pairwise_singleton _ _, ?_⟩
    intro a ha b hbm
    rw [List.mem_singleton] at hbm
    rw [hbm]
    exact le_trans (hle a ha) hny
  · rw [hstep]
    intro x hx
    rcases List.mem_append.mp (List.drop_subset _ _ hx) with h | h
    · exact le_trans (hle x h) hny
    · rw [List.mem_singleton] at h
      rw [h]
  · intro hlen
    rw [hstep]
    exact hwindow hlen

/-- Helper: invariant of a back-to-back acquire run from the fresh state:
no backoff window, a non-negative clock, a sorted history, all of it below
the clock. -/
theorem acquireRun_invariant (m : ℚ) (n : Nat) :
    (acquireRun m n).1.backoff_until = 0
    ∧ 0 ≤ (acquireRun m n).2
    ∧ (acquireRun m n).1.history.Pairwise (· ≤ ·)
    ∧ ∀ x ∈ (acquireRun m n).1.history, x ≤ (acquireRun m n).2 := by
  induction n with
  | zero => simp [acquireRun]
  | succ k ih =>
    obtain ⟨hb, hnow, hsort, hle⟩ := ih
    have hstep := enforce_rate_limit_step m (acquireRun m k).1
      (acquireRun m k).2 hb hnow hsort hle
    have hu : acquireRun m (k + 1) =
        enforce_rate_limit m (acquireRun m k).1 (acquireRun m k).2 := rfl
    rw [hu]
    exact ⟨hstep.2.1, le_trans hnow hstep.1, hstep.2.2.1, hstep.2.2.2.1⟩

/-- C3, amended: the guarantee the limiter actually provides.  An acquire
performed when at least two timestamps are already recorded appends its new
timestamp at least `MIN_UPDATE_INTERVAL` (here an arbitrary `m`) after the
oldest timestamp of the window of up to 5 entries it inspects; consecutive
recorded timestamps are *not* kept `m` apart (see the counterexample). -/
theorem rate_limiter_window_guarantee (m : ℚ) (n : Nat)
    (h2 : 2 ≤ (acquireRun m n).1.history.length) :
    (lastN 5 (acquireRun m n).1.history).headD 0 + m
      ≤ (acquireRun m (n + 1)).2 := by
  obtain ⟨hb, hnow, hsort, hle⟩ := acquireRun_invariant m n
  have hstep := enforce_rate_limit_step m (acquireRun m n).1
    (acquireRun m n).2 hb hnow hsort hle
  have hu : acquireRun m (n + 1) =
      enforce_rate_limit m (acquireRun m n).1 (acquireRun m n).2 := rfl
  rw [hu]
  exact hstep.2.2.2.2 h2

/-- Helper: the concrete 5-call back-to-back run at the default minimum
interval of 3 seconds, step by step. -/
theorem acquireRun_eval :
    acquireRun 3 1 = (⟨0, 0, [0]⟩, 0)
    ∧ acquireRun 3 2 = (⟨0, 0, [0, 0]⟩, 0)
    ∧ acquireRun 3 3 = (⟨3, 0, [0, 0, 3]⟩, 3)
    ∧ acquireRun 3 4 = (⟨9/2, 0, [0, 0, 3, 9/2]⟩, 9/2)
    ∧ acquireRun 3 5 = (⟨6, 0, [0, 0, 3, 9/2, 6]⟩, 6) := by
  have e1 : acquireRun 3 1 = (⟨0, 0, [0]⟩, 0) := by
    have hu : acquireRun (3 : ℚ) 1 =
        enforce_rate_limit 3 ({} : RateLimitState) 0 := rfl
    rw [hu]
    norm_num [enforce_rate_limit, lastN, RateLimitState.mk.injEq]
  have e2 : acquireRun 3 2 = (⟨0, 0, [0, 0]⟩, 0) := by
    have hu : acquireRun (3 : ℚ) 2 =
        enforce_rate_limit 3 (acquireRun 3 1).1 (acquireRun 3 1).2 := rfl
    rw [hu, e1]
    norm_num [enforce_rate_limit, lastN, RateLimitState.mk.injEq]
  have e3 : acquireRun 3 3 = (⟨3, 0, [0, 0, 3]⟩, 3) := by
    have hu : acquireRun (3 : ℚ) 3 =
        enforce_rate_limit 3 (acquireRun 3 2).1 (acquireRun 3 2).2 := rfl
    rw [hu, e2]
    norm_num [enforce_rate_limit, lastN, List.getLastD, RateLimitState.mk.injEq]
  have e4 : acquireRun 3 4 = (⟨9/2, 0, [0, 0, 3, 9/2]⟩, 9/2) := by
    have hu : acquireRun (3 : ℚ) 4 =
        enforce_rate_limit 3 (acquireRun 3 3).1 (acquireRun 3 3).2 := rfl
    rw [hu, e3]
    norm_num [enforce_rate_limit, lastN, List.getLastD, RateLimitState.mk.injEq]
  have e5 : acquireRun 3 5 = (⟨6, 0, [0, 0, 3, 9/2, 6]⟩, 6) := by
    have hu : acquireRun (3 : ℚ) 5 =
        enforce_rate_limit 3 (acquireRun 3 4).1 (acquireRun 3 4).2 := rfl
    rw [hu, e4]
    norm_num [enforce_rate_limit, lastN, List.getLastD, RateLimitState.mk.injEq]
  exact ⟨e1, e2, e3, e4, e5⟩

/-- Counterexample to C3 as stated: five back-to-back acquire calls on a
fresh key at the default minimum interval record the history
[0, 0, 3, 9/2, 6], whose first two consecutive timestamps are 0 seconds
apart (and 3 → 9/2 only 3/2 apart) — closer than the minimum interval. -/
theorem rate_limiter_spacing_cex :
    (acquireRun MIN_UPDATE_INTERVAL 5).1.history = [0, 0, 3, 9/2, 6]
    ∧ ¬ (acquireRun MIN_UPDATE_INTERVAL 5).1.history.Chain'
        (fun a b => MIN_UPDATE_INTERVAL ≤ b - a) := by
  have hh : (acquireRun MIN_UPDATE_INTERVAL 5).1.history = [0, 0, 3, 9/2, 6] := by
    rw [show MIN_UPDATE_INTERVAL = (3 : ℚ) from rfl, acquireRun_eval.2.2.2.2]
  refine ⟨hh, ?_⟩
  rw [hh]
  intro hch
  rw [List.chain'_cons] at hch
  have h0 := hch.1
  norm_num [MIN_UPDATE_INTERVAL] at h0

/-- Witness for the amended C3 theorem at a concrete input. -/
theorem rate_limiter_window_guarantee_witness :
    (lastN 5 (acquireRun 3 2).1.history).headD 0 + 3 ≤ (acquireRun 3 (2 + 1)).2 :=
  rate_limiter_window_guarantee 3 2
    (by rw [acquireRun_eval.2.1]; norm_num)

/-- Helper: splitting on newlines never yields an empty list of lines. -/
theorem splitNl_ne_nil (s : Str) : splitNl s ≠ [] := by
  match s with
  | [] => simp [splitNl]
  | c :: cs =>
    rw [splitNl]
    split
    · simp
    · split <;> simp

/-- Helper: `joinSep` on a list with a non-empty tail. -/
theorem joinSep_cons (sep l : Str) (ls : List Str) (h : ls ≠ []) :
    joinSep sep (l :: ls) = l ++ sep ++ joinSep sep ls := by
  match ls, h with
  | x :: xs, _ => rfl

/-- Helper: `joinSep` distributes over concatenation of non-empty lists. -/
theorem joinSep_append (sep : Str) (A B : List Str) (hA : A ≠ [])
    (hB : B ≠ []) :
    joinSep sep (A ++ B) = joinSep sep A ++ sep ++ joinSep sep B := by
  induction A with
  | nil => exact absurd rfl hA
  | cons a as ih =>
    match as with
    | [] =>
      rw [List.singleton_append, joinSep_cons sep a B hB]
      rfl
    | a' :: as' =>
      rw [List.cons_append, joinSep_cons sep a ((a' :: as') ++ B) (by simp),
        joinSep_cons sep a (a' :: as') (by simp), ih (by simp)]
      simp [List.append_assoc]

/-- Helper: joining the per-group joins equals joining the concatenation,
for a list of non-empty groups. -/
theorem joinSep_map_join (sep : Str) (gs : List (List Str))
    (h : ∀ g ∈ gs, g ≠ []) :
    joinSep sep (gs.map (joinSep sep)) = joinSep sep gs.flatten := by
  induction gs with
  | nil => rfl
  | cons g gs' ih =>
    match gs' with
    | [] => simp [joinSep]
    | g' :: gs'' =>
      have hg : g ≠ [] := h g (by simp)
      have hg' : g' ≠ [] := h g' (by simp)
      have hjoin_ne : (g' :: gs'').flatten ≠ [] := by
        simp only [List.flatten_cons]
        intro hc
        exact hg' (List.append_eq_nil.mp hc).1
      rw [List.map_cons, joinSep_cons sep _ _ (by simp),
        ih (fun x hx => h x (List.mem_cons_of_mem g hx)),
        show (g :: g' :: gs'').flatten = g ++ (g' :: gs'').flatten from rfl,
        joinSep_append sep g _ hg hjoin_ne]

/-- Helper: `linesSize` is additive over concatenation. -/
theorem linesSize_append (A B : List Str) :
    linesSize (A ++ B) = linesSize A + linesSize B := by
  simp [linesSize]

/-- Helper: the length of a joined non-empty group of lines is its
accumulated size minus the one newline the final line does not carry. -/
theorem joinNl_length (g : List Str) (h : g ≠ []) :
    ((joinNl g).length : Int) + 1 = linesSize g := by
  induction g with
  | nil => exact absurd rfl h
  | cons l ls ih =>
    match ls with
    | [] => simp [joinNl, joinSep, linesSize, lineSize]
    | x :: xs =>
      have hih := ih (by simp)
      rw [joinNl, joinSep_cons ['\n'] l (x :: xs) (by simp)]
      rw [joinNl] at hih
      simp only [List.length_append, linesSize, List.map_cons, List.sum_cons,
        lineSize, List.length_cons, List.length_nil] at hih ⊢
      push_cast at hih ⊢
      omega

/-- Helper: the accumulated sizes of all lines of a split sum to the string
length plus one. -/
theorem linesSize_splitNl (s : Str) : linesSize (splitNl s) = (s.length : Int) + 1 := by
  induction s with
  | nil => simp [splitNl, linesSize, lineSize]
  | cons c cs ih =>
    rw [splitNl]
    split
    · simp only [linesSize, List.map_cons, List.sum_cons, lineSize,
        List.length_cons, List.length_nil] at *
      push_cast at *
      omega
    · have hne := splitNl_ne_nil cs
      match hsp : splitNl cs with
      | [] => exact absurd hsp hne
      | l :: ls =>
        rw [hsp] at ih
        simp only [linesSize, List.map_cons, List.sum_cons, lineSize,
          List.length_cons, List.length_nil] at *
        push_cast at *
        omega

/-- Helper: joining the split lines restores the string. -/
theorem joinNl_splitNl (s : Str) : joinNl (splitNl s) = s := by
  induction s with
  | nil => rfl
  | cons c cs ih =>
    rw [splitNl]
    split
    · rename_i hc
      rw [joinNl, joinSep_cons _ _ _ (splitNl_ne_nil cs)]
      rw [joinNl] at ih
      rw [ih, hc]
      rfl
    · have hne := splitNl_ne_nil cs
      match hsp : splitNl cs with
      | [] => exact absurd hsp hne
      | l :: ls =>
        rw [hsp] at ih
        match ls with
        | [] =>
          simp only [joinNl, joinSep] at ih ⊢
          rw [ih]
        | x :: xs =>
          rw [joinNl, joinSep_cons _ _ _ (by simp)]
          rw [joinNl, joinSep_cons _ _ _ (by simp)] at ih
          rw [List.cons_append, List.cons_append, ih]

/-- Helper: the groups produced by the greedy loop flatten back to the
pending chunk followed by the remaining lines. -/
theorem chunkLoop_join (m : Int) (lines : List Str) :
    ∀ cur sz, (chunkLoop m lines cur sz).flatten = cur ++ lines := by
  induction lines with
  | nil =>
    intro cur sz
    rw [chunkLoop]
    split
    · rename_i hc
      simp_all
    · simp
  | cons line rest ih =>
    intro cur sz
    rw [chunkLoop]
    split
    · simp [ih]
    · simp [ih]

/-- Helper: every group produced by the greedy loop is non-empty. -/
theorem chunkLoop_groups_ne_nil (m : Int) (lines : List Str) :
    ∀ cur sz g, g ∈ chunkLoop m lines cur sz → g ≠ [] := by
  induction lines with
  | nil =>
    intro cur sz g hg
    rw [chunkLoop] at hg
    split at hg
    · simp at hg
    · rename_i hc
      rw [List.mem_singleton] at hg
      rw [hg]
      simpa using hc
  | cons line rest ih =>
    intro cur sz g hg
    rw [chunkLoop] at hg
    split at hg
    · rename_i hcond
      rcases List.mem_cons.mp hg with h | h
      · rw [h]
        simpa using hcond.2
      · exact ih _ _ _ h
    · exact ih _ _ _ hg

/-- Helper: when every line fits the budget, every group produced by the
greedy loop fits the budget. -/
theorem chunkLoop_size (m : Int) (lines : List Str)
    (h : ∀ l ∈ lines, lineSize l ≤ m) :
    ∀ cur, (cur = [] ∨ linesSize cur ≤ m) →
      ∀ g ∈ chunkLoop m lines cur (linesSize cur), linesSize g ≤ m := by
  induction lines with
  | nil =>
    intro cur hcur g hg
    rw [chunkLoop] at hg
    split at hg
    · simp at hg
    · rename_i hc
      rw [List.mem_singleton] at hg
      rcases hcur with h0 | h0
      · rw [h0] at hc
        simp at hc
      · rw [hg]
        exact h0
  | cons line rest ih =>
    intro cur hcur g hg
    have hline : lineSize line ≤ m := h line (by simp)
    have hrest : ∀ l ∈ rest, lineSize l ≤ m :=
      fun l hl => h l (List.mem_cons_of_mem line hl)
    rw [chunkLoop] at hg
    split at hg
    · rename_i hcond
      rcases List.mem_cons.mp hg with h0 | h0
      · rcases hcur with h1 | h1
        · rw [h1] at hcond
          simp at hcond
        · rw [h0]
          exact h1
      · have hform : lineSize line = linesSize [line] := by
          simp [linesSize]
        rw [hform] at h0
        exact ih hrest [line] (Or.inr (by simpa [linesSize] using hline)) g h0
    · rename_i hcond
      have hform : linesSize cur + lineSize line = linesSize (cur ++ [line]) := by
        rw [linesSize_append]
        simp [linesSize]
      rw [hform] at hg
      have hfits : linesSize (cur ++ [line]) ≤ m := by
        rw [not_and_or] at hcond
        rcases hcond with h1 | h1
        · rw [linesSize_append]
          simp only [linesSize, List.map_cons, List.sum_cons, lineSize,
            List.map_nil, List.sum_nil] at *
          omega
        · rw [not_not, List.isEmpty_eq_true] at h1
          rw [h1, List.nil_append]
          simpa [linesSize] using hline
      exact ih hrest (cur ++ [line]) (Or.inr hfits) g hg

/-- C4, amended: a code asset exceeding the split budget, *all of whose
lines individually fit the budget*, is split at line boundaries into at
least 2 chunks, each chunk's content within the budget, and rejoining the
chunk contents with one newline at each boundary reproduces the asset
exactly (the reassembly holds unconditionally; the chunk-count and
chunk-size bounds need the line-fit proviso, see the counterexample). -/
theorem code_split_correct (m : Int) (code : Str)
    (hbig : m < (code.length : Int))
    (hfit : ∀ l ∈ splitNl code, lineSize l ≤ m) :
    2 ≤ (file_box_chunks m code).length
    ∧ (∀ ch ∈ file_box_chunks m code, (ch.length : Int) ≤ m)
    ∧ joinNl (file_box_chunks m code) = code := by
  have hsplit : file_box_chunks m code = split_code m code := by
    rw [file_box_chunks, if_neg (by exact not_le.mpr hbig)]
  have hne : ∀ g ∈ chunkLoop m (splitNl code) [] 0, g ≠ [] :=
    fun g hg => chunkLoop_groups_ne_nil m (splitNl code) [] 0 g hg
  have hjoin : (chunkLoop m (splitNl code) [] 0).flatten = splitNl code := by
    simpa using chunkLoop_join m (splitNl code) [] 0
  have hzero : (0 : Int) = linesSize [] := by simp [linesSize]
  have hsize : ∀ g ∈ chunkLoop m (splitNl code) [] 0, linesSize g ≤ m := by
    intro g hg
    refine chunkLoop_size m (splitNl code) hfit [] (Or.inl rfl) g ?_
    rwa [← hzero]
  refine ⟨?_, ?_, ?_⟩
  · rw [hsplit, split_code, List.length_map]
    match hgs : chunkLoop m (splitNl code) [] 0 with
    | [] =>
      rw [hgs] at hjoin
      exact absurd hjoin.symm (splitNl_ne_nil code)
    | [g] =>
      exfalso
      rw [hgs] at hjoin hsize
      have hg : linesSize g ≤ m := hsize g (by simp)
      have : linesSize g = (code.length : Int) + 1 := by
        rw [← linesSize_splitNl, ← hjoin]
        simp
      omega
    | g :: g' :: gs' => simp
  · rw [hsplit, split_code]
    intro ch hch
    rcases List.mem_map.mp hch with ⟨g, hg, hgch⟩
    have h1 := joinNl_length g (hne g hg)
    have h2 := hsize g hg
    rw [hgch] at h1
    omega
  · rw [hsplit, split_code]
    have hmap : List.map joinNl (chunkLoop m (splitNl code) [] 0)
        = List.map (joinSep ['\n']) (chunkLoop m (splitNl code) [] 0) := by
      simp [joinNl]
    rw [joinNl, hmap, joinSep_map_join ['\n'] _ hne, hjoin]
    exact joinNl_splitNl code

/-- Helper: splitting a newline-free replicate yields the single line. -/
theorem splitNl_replicate (n : Nat) :
    splitNl (List.replicate n 'a') = [List.replicate n 'a'] := by
  induction n with
  | zero => rfl
  | succ k ih =>
    rw [List.replicate_succ, splitNl, if_neg (by decide), ih]

/-- Counterexample to C4 as stated: with the default configuration the split
budget for a "python" asset is 3982, and a 3983-character single-line asset
exceeds it, yet the splitter emits exactly one chunk (not at least 2) whose
content exceeds the budget. -/
theorem code_split_single_line_cex :
    max_code_size MAX_MESSAGE_LENGTH pythonLang < (longLine.length : Int)
    ∧ file_box_chunks (max_code_size MAX_MESSAGE_LENGTH pythonLang) longLine
        = [longLine]
    ∧ ¬ 2 ≤ (file_box_chunks (max_code_size MAX_MESSAGE_LENGTH pythonLang)
        longLine).length
    ∧ ∃ ch ∈ file_box_chunks (max_code_size MAX_MESSAGE_LENGTH pythonLang)
        longLine,
        max_code_size MAX_MESSAGE_LENGTH pythonLang < (ch.length : Int) := by
  have hms : max_code_size MAX_MESSAGE_LENGTH pythonLang = 3982 := by
    norm_num [max_code_size, fence_overhead, pythonLang, MAX_MESSAGE_LENGTH]
  have hlen : ((longLine.length : Nat) : Int) = 3983 := by
    rw [longLine, List.length_replicate]
    norm_num
  have hval : file_box_chunks (max_code_size MAX_MESSAGE_LENGTH pythonLang)
      longLine = [longLine] := by
    rw [file_box_chunks, if_neg (by rw [hms, hlen]; norm_num), split_code,
      show splitNl longLine = [longLine] from by
        rw [longLine]; exact splitNl_replicate 3983]
    rw [chunkLoop, if_neg (by simp), chunkLoop]
    simp [joinNl, joinSep]
  refine ⟨by rw [hms, hlen]; norm_num, hval, by rw [hval]; norm_num, ?_⟩
  refine ⟨longLine, by rw [hval]; simp, by rw [hms, hlen]; norm_num⟩

/-- Witness for the amended C4 theorem at a concrete input. -/
theorem code_split_correct_witness :
    2 ≤ (file_box_chunks 5 ['a', 'b', '\n', 'c', 'd', '\n', 'e', 'f']).length
    ∧ (∀ ch ∈ file_box_chunks 5 ['a', 'b', '\n', 'c', 'd', '\n', 'e', 'f'],
        (ch.length : Int) ≤ 5)
    ∧ joinNl (file_box_chunks 5 ['a', 'b', '\n', 'c', 'd', '\n', 'e', 'f'])
        = ['a', 'b', '\n', 'c', 'd', '\n', 'e', 'f'] :=
  code_split_correct 5 ['a', 'b', '\n', 'c', 'd', '\n', 'e', 'f']
    (by decide) (by decide)

/-- Helper: with a positive width and enough fuel, the fixed-size windows
concatenate back to the input. -/
theorem windowsAux_flatten (safe : Nat) (hsafe : 1 ≤ safe) :
    ∀ fuel (l : Str), l.length ≤ fuel → (windowsAux safe fuel l).flatten = l := by
  intro fuel
  induction fuel with
  | zero =>
    intro l hl
    match l with
    | [] => rfl
    | c :: cs => simp at hl
  | succ k ih =>
    intro l hl
    match l with
    | [] => rfl
    | c :: cs =>
      have hdrop : ((c :: cs).drop safe).length ≤ k := by
        rw [List.length_drop, List.length_cons]
        rw [List.length_cons] at hl
        omega
      calc (windowsAux safe (k + 1) (c :: cs)).flatten
          = (c :: cs).take safe ++ (windowsAux safe k ((c :: cs).drop safe)).flatten := by
            rw [windowsAux, List.flatten_cons]
            simp
        _ = (c :: cs).take safe ++ (c :: cs).drop safe := by rw [ih _ hdrop]
        _ = c :: cs := List.take_append_drop safe (c :: cs)

/-- Helper: windowing a non-empty string yields a non-empty message list. -/
theorem windows_ne_nil (safe : Nat) (l : Str) (hl : l ≠ []) :
    windows safe l ≠ [] := by
  match l, hl with
  | c :: cs, _ =>
    rw [windows, List.length_cons, windowsAux]
    all_goals simp

/-- C5: if the chunking pipeline raises, `format_response_for_telegram`
recovers with a non-empty message list, zero assets, whose concatenation is
exactly the channel-escaped raw input; when the escaped text exceeds the
maximum message length the messages are precisely the fixed-size windows of
the safe length, and otherwise the single escaped text. -/
theorem formatter_fallback {A : Type} (escape : Str → Str) (raw : Str)
    (pipeline : Except Unit (List Str × List A)) (e : Unit)
    (hfail : pipeline = .error e) :
    (format_response_for_telegram escape pipeline raw).1 ≠ []
    ∧ (format_response_for_telegram escape pipeline raw).2 = []
    ∧ (format_response_for_telegram escape pipeline raw).1.flatten = escape raw
    ∧ (MAX_MESSAGE_LENGTH < (escape raw).length →
        (format_response_for_telegram escape pipeline raw).1
          = windows SAFE_MESSAGE_LENGTH (escape raw))
    ∧ ((escape raw).length ≤ MAX_MESSAGE_LENGTH →
        (format_response_for_telegram escape pipeline raw).1
          = [escape raw]) := by
  subst hfail
  simp only [format_response_for_telegram, fallback_messages]
  by_cases hlen : (escape raw).length ≤ MAX_MESSAGE_LENGTH
  · rw [if_pos hlen]
    refine ⟨by simp, by trivial, by simp, ?_, fun _ => by trivial⟩
    intro hbig
    omega
  · rw [if_neg hlen]
    have hne : escape raw ≠ [] := by
      intro hc
      rw [hc] at hlen
      simp [MAX_MESSAGE_LENGTH] at hlen
    refine ⟨windows_ne_nil _ _ hne, by trivial, ?_, fun _ => by trivial,
      fun hc => absurd hc hlen⟩
    exact windowsAux_flatten SAFE_MESSAGE_LENGTH
      (by norm_num [SAFE_MESSAGE_LENGTH]) _ _ le_rfl

/-- Witness for C5 at a concrete input. -/
theorem formatter_fallback_witness :
    (format_response_for_telegram (A := Unit) (fun s => s)
        (.error ()) ['a']).1 ≠ []
    ∧ (format_response_for_telegram (A := Unit) (fun s => s)
        (.error ()) ['a']).2 = []
    ∧ (format_response_for_telegram (A := Unit) (fun s => s)
        (.error ()) ['a']).1.flatten = ['a'] := by
  have h := formatter_fallback (A := Unit) (fun s => s) ['a'] (.error ()) () rfl
  exact ⟨h.1, h.2.1, h.2.2.1⟩

/-- Helper: gluing an already-separated buffer back into the join. -/
theorem joinSep_glue (sep a b : Str) (rest : List Str) :
    joinSep sep ((a ++ sep ++ b) :: rest) = joinSep sep (a :: b :: rest) := by
  match rest with
  | [] => simp [joinSep, List.append_assoc]
  | r :: rs =>
    rw [joinSep_cons sep (a ++ sep ++ b) (r :: rs) (by simp),
      joinSep_cons sep a (b :: r :: rs) (by simp),
      joinSep_cons sep b (r :: rs) (by simp)]
    simp [List.append_assoc]

/-- Helper: the merge loop never discards a non-empty buffer. -/
theorem mergeLoop_ne_nil (maxLen : Nat) (parts : List Str) :
    ∀ cur, cur ≠ [] → mergeLoop maxLen parts cur ≠ [] := by
  induction parts with
  | nil =>
    intro cur hc
    rw [mergeLoop]
    simp [hc]
  | cons p rest ih =>
    intro cur hc
    rw [mergeLoop]
    split
    · exact ih cur hc
    split
    · simp
    split
    · exact ih _ (by simp [blank])
    split
    · exact ih p (by rename_i h1 h2 h3 h4; simpa using h1)
    · simp

/-- Helper: the merge loop keeps every message within the limit when every
part is within the limit. -/
theorem mergeLoop_bound (maxLen : Nat) (parts : List Str)
    (h : ∀ p ∈ parts, p.length ≤ maxLen) :
    ∀ cur, cur.length ≤ maxLen →
      ∀ m ∈ mergeLoop maxLen parts cur, m.length ≤ maxLen := by
  induction parts with
  | nil =>
    intro cur hcur m hm
    rw [mergeLoop] at hm
    split at hm
    · simp at hm
    · rw [List.mem_singleton] at hm
      rw [hm]
      exact hcur
  | cons p rest ih =>
    intro cur hcur m hm
    have hple := h p (by simp)
    have hrest : ∀ q ∈ rest, q.length ≤ maxLen :=
      fun q hq => h q (List.mem_cons_of_mem p hq)
    rw [mergeLoop] at hm
    split at hm
    · exact ih hrest cur hcur m hm
    split at hm
    · rename_i h1 h2
      omega
    split at hm
    · rename_i h1 h2 h3
      refine ih hrest _ ?_ m hm
      simp only [List.length_append, blank, List.length_cons, List.length_nil]
      omega
    split at hm
    · exact ih hrest p hple m hm
    · rcases List.mem_cons.mp hm with h0 | h0
      · rw [h0]
        exact hcur
      · exact ih hrest p hple m h0

/-- Helper: the merge loop of non-empty, within-limit parts joins back to
the buffer followed by the parts. -/
theorem mergeLoop_join (maxLen : Nat) (parts : List Str)
    (h : ∀ p ∈ parts, p ≠ [] ∧ p.length ≤ maxLen) :
    ∀ cur, cur ≠ [] →
      joinSep blank (mergeLoop maxLen parts cur)
        = joinSep blank (cur :: parts) := by
  induction parts with
  | nil =>
    intro cur hc
    rw [mergeLoop]
    simp [hc]
  | cons p rest ih =>
    intro cur hc
    obtain ⟨hpne, hple⟩ := h p (by simp)
    have hrest : ∀ q ∈ rest, q ≠ [] ∧ q.length ≤ maxLen :=
      fun q hq => h q (List.mem_cons_of_mem p hq)
    rw [mergeLoop]
    rw [if_neg (by simpa using hpne)]
    rw [if_neg (not_lt.mpr hple)]
    by_cases hfits : ¬ cur.isEmpty ∧ cur.length + 2 + p.length ≤ maxLen
    · rw [if_pos hfits]
      rw [ih hrest _ (by simp [blank])]
      exact joinSep_glue blank cur p rest
    · rw [if_neg hfits]
      rw [if_neg (by simpa using hc)]
      rw [joinSep_cons blank cur (mergeLoop maxLen rest p)
          (mergeLoop_ne_nil maxLen rest p hpne),
        ih hrest p hpne, joinSep_cons blank cur (p :: rest) (by simp)]

/-- Helper: an oversized part always appears verbatim as its own message. -/
theorem mergeLoop_oversized (maxLen : Nat) (parts : List Str) :
    ∀ cur q, q ∈ parts → maxLen < q.length →
      q ∈ mergeLoop maxLen parts cur := by
  induction parts with
  | nil =>
    intro cur q hq
    simp at hq
  | cons p rest ih =>
    intro cur q hq hbig
    rw [mergeLoop]
    rcases List.mem_cons.mp hq with h0 | h0
    · subst h0
      rw [if_neg (by
        intro hce
        rw [List.isEmpty_eq_true] at hce
        rw [hce] at hbig
        simp at hbig)]
      rw [if_pos hbig]
      simp
    · by_cases hpe : p.isEmpty
      · rw [if_pos hpe]
        exact ih cur q h0 hbig
      rw [if_neg hpe]
      by_cases hpov : maxLen < p.length
      · rw [if_pos hpov]
        refine List.mem_append.mpr (Or.inr ?_)
        exact List.mem_cons_of_mem p (ih [] q h0 hbig)
      rw [if_neg hpov]
      by_cases hfits : ¬ cur.isEmpty ∧ cur.length + 2 + p.length ≤ maxLen
      · rw [if_pos hfits]
        exact ih _ q h0 hbig
      rw [if_neg hfits]
      by_cases hce : cur.isEmpty
      · rw [if_pos hce]
        exact ih p q h0 hbig
      · rw [if_neg hce]
        exact List.mem_cons_of_mem cur (ih p q h0 hbig)

/-- C6: the greedy merge.  For an ordered list of non-empty parts each within
the limit, every returned message is within the limit and joining the
returned messages with a blank line equals joining the input parts with a
blank line (content and order preserved); and (second conjunct, any input)
a single part longer than the limit is emitted unmodified as its own
message. -/
theorem merge_messages_correct (maxLen : Nat) :
    (∀ parts : List Str, (∀ p ∈ parts, p ≠ []) →
      (∀ p ∈ parts, p.length ≤ maxLen) →
      (∀ m ∈ merge_into_messages maxLen parts, m.length ≤ maxLen)
      ∧ joinSep blank (merge_into_messages maxLen parts)
          = joinSep blank parts)
    ∧ (∀ parts : List Str, ∀ q ∈ parts, maxLen < q.length →
        q ∈ merge_into_messages maxLen parts) := by
  constructor
  · intro parts hne hle
    refine ⟨fun m hm => mergeLoop_bound maxLen parts hle [] (by simp) m hm, ?_⟩
    match parts with
    | [] => rfl
    | p :: rest =>
      have hpne : p ≠ [] := hne p (by simp)
      have hple : p.length ≤ maxLen := hle p (by simp)
      rw [merge_into_messages, mergeLoop]
      rw [if_neg (by simpa using hpne)]
      rw [if_neg (not_lt.mpr hple)]
      rw [if_neg (by simp)]
      rw [if_pos (by simp)]
      exact mergeLoop_join maxLen rest
        (fun q hq => ⟨hne q (List.mem_cons_of_mem p hq),
          hle q (List.mem_cons_of_mem p hq)⟩) p hpne
  · intro parts q hq hbig
    exact mergeLoop_oversized maxLen parts [] q hq hbig

/-- Witness for C6 at concrete inputs. -/
theorem merge_messages_correct_witness :
    (∀ m ∈ merge_into_messages 10 [['a'], ['b']], m.length ≤ 10)
    ∧ joinSep blank (merge_into_messages 10 [['a'], ['b']])
        = joinSep blank [['a'], ['b']]
    ∧ List.replicate 12 'x' ∈ merge_into_messages 10 [List.replicate 12 'x'] := by
  have h1 := (merge_messages_correct 10).1 [['a'], ['b']]
    (by decide) (by decide)
  have h2 := (merge_messages_correct 10).2 [List.replicate 12 'x']
    (List.replicate 12 'x') (by simp) (by simp)
  exact ⟨h1.1, h1.2, h2⟩

/-- Helper: a dict assignment leaves every other key's lookup unchanged. -/
theorem dictGet_set_ne {κ ν : Type} [BEq κ] [LawfulBEq κ]
    (d : List (κ × ν)) (k k' : κ) (v : ν) (h : k ≠ k') :
    dictGet (dictSet d k v) k' = dictGet d k' := by
  induction d with
  | nil =>
    simp only [dictSet, dictGet]
    rw [if_neg (by simpa using h)]
  | cons e es ih =>
    rw [dictSet]
    by_cases he : e.1 == k
    · rw [if_pos he]
      rw [dictGet, dictGet, if_neg (by simpa using h)]
      have hek : e.1 = k := by simpa using he
      rw [if_neg (by simp [hek]; simpa using h)]
    · rw [if_neg he]
      rw [dictGet, dictGet]
      by_cases he' : e.1 == k'
      · rw [if_pos he', if_pos he']
      · rw [if_neg he', if_neg he']
        exact ih

/-- Helper: a dict assignment makes the key's lookup the new value. -/
theorem dictGet_set_self {κ ν : Type} [BEq κ] [LawfulBEq κ]
    (d : List (κ × ν)) (k : κ) (v : ν) :
    dictGet (dictSet d k v) k = some v := by
  induction d with
  | nil => simp [dictSet, dictGet]
  | cons e es ih =>
    rw [dictSet]
    by_cases he : e.1 == k
    · rw [if_pos he, dictGet, if_pos (by simp)]
    · rw [if_neg he, dictGet, if_neg he]
      exact ih

/-- Helper: every reconciliation action serves an index at or beyond the
current walk position. -/
theorem updLoop_idx_ge (anchorId : Nat) (msgs : List String) :
    ∀ i0 sent nextId, ∀ a ∈ (updLoop anchorId msgs i0 sent nextId).2.1,
      i0 ≤ actIdx a := by
  induction msgs with
  | nil =>
    intro i0 sent nextId a ha
    simp [updLoop] at ha
  | cons m rest ih =>
    intro i0 sent nextId a ha
    rw [updLoop] at ha
    by_cases hi : i0 = 0
    · subst hi
      exact Nat.zero_le _
    · rw [if_neg hi] at ha
      split at ha
      · split at ha
        · simp only [List.mem_cons] at ha
          rcases ha with h0 | h0
          · rw [h0, actIdx]
          · exact le_trans (Nat.le_succ i0) (ih _ _ _ a h0)
        · exact le_trans (Nat.le_succ i0) (ih _ _ _ a ha)
      · simp only [List.mem_cons] at ha
        rcases ha with h0 | h0
        · rw [h0, actIdx]
        · exact le_trans (Nat.le_succ i0) (ih _ _ _ a h0)

/-- Helper: an index whose freshly formatted content equals its last-sent
content is never touched by the reconciliation walk. -/
theorem updLoop_unchanged (anchorId : Nat) (msgs : List String) :
    ∀ i0 sent nextId i mid c, lookupSent sent i = some (mid, c) →
      msgs.get? (i - i0) = some c → i0 ≤ i →
      ∀ a ∈ (updLoop anchorId msgs i0 sent nextId).2.1, actIdx a ≠ i := by
  induction msgs with
  | nil =>
    intro i0 sent nextId i mid c _ _ _ a ha
    simp [updLoop] at ha
  | cons m rest ih =>
    intro i0 sent nextId i mid c hlk hget hle a ha
    rw [updLoop] at ha
    by_cases hi0 : i0 = i
    · subst hi0
      have hm : m = c := by
        rw [Nat.sub_self] at hget
        simpa using hget
      subst hm
      by_cases hz : i0 = 0
      · rw [if_pos hz] at ha
        subst hz
        rw [show lookupSent sent 0 = some (mid, m) from hlk] at ha
        dsimp only at ha
        rw [if_neg (by simp)] at ha
        intro hcontra
        exact absurd (updLoop_idx_ge anchorId rest (0 + 1) sent nextId a ha)
          (by omega)
      · rw [if_neg hz] at ha
        rw [show lookupSent sent i0 = some (mid, m) from hlk] at ha
        dsimp only at ha
        rw [if_neg (by simp)] at ha
        intro hcontra
        exact absurd (updLoop_idx_ge anchorId rest (i0 + 1) sent nextId a ha)
          (by omega)
    · have hlt : i0 < i := lt_of_le_of_ne hle hi0
      have hget' : rest.get? (i - (i0 + 1)) = some c := by
        have heq : i - i0 = (i - (i0 + 1)) + 1 := by omega
        rw [heq] at hget
        simpa using hget
      by_cases hz : i0 = 0
      · rw [if_pos hz] at ha
        subst hz
        split at ha
        · split at ha
          · simp only [List.mem_cons] at ha
            rcases ha with h0 | h0
            · rw [h0, actIdx]
              omega
            · refine ih 1 _ _ i mid c ?_ hget' (by omega) a h0
              rw [lookupSent, setSent, dictGet_set_ne _ 0 i _ (by omega)]
              exact hlk
          · exact ih 1 sent nextId i mid c hlk hget' (by omega) a ha
        · simp only [List.mem_cons] at ha
          rcases ha with h0 | h0
          · rw [h0, actIdx]
            omega
          · refine ih 1 _ _ i mid c ?_ hget' (by omega) a h0
            rw [lookupSent, setSent, dictGet_set_ne _ 0 i _ (by omega)]
            exact hlk
      · rw [if_neg hz] at ha
        split at ha
        · split at ha
          · simp only [List.mem_cons] at ha
            rcases ha with h0 | h0
            · rw [h0, actIdx]
              omega
            · refine ih (i0 + 1) _ _ i mid c ?_ hget' (by omega) a h0
              rw [lookupSent, setSent, dictGet_set_ne _ i0 i _ (by omega)]
              exact hlk
          · exact ih (i0 + 1) sent nextId i mid c hlk hget' (by omega) a ha
        · simp only [List.mem_cons] at ha
          rcases ha with h0 | h0
          · rw [h0, actIdx]
            omega
          · refine ih (i0 + 1) _ _ i mid c ?_ hget' (by omega) a h0
            rw [lookupSent, setSent, dictGet_set_ne _ i0 i _ (by omega)]
            exact hlk

/-- C7: streaming the fragments "Hello " and "World" with no failures.  No
mid-stream flush fires (the text never exceeds 50 characters), so the final
flush formats "Hello World"; when the formatter renders it as one message
`r`, the final outbound state maps segment 0 to the anchor message holding
`r`, the accumulated text is "Hello World", every action of the whole run
(including finalization) is an in-place edit of the anchor — never a second
send — and (last conjunct, fully general) reconciliation never touches an
index whose freshly formatted content equals its last-sent content. -/
theorem stream_hello_world (fmt : String → List String) (anchorId : Nat)
    (r : String) (hfmt : fmt "Hello World" = [r]) (t0 t1 t2 : ℚ) :
    (streamRun fmt anchorId [("Hello ", t1), ("World", t2)] t0).sent
        = [(0, (anchorId, r))]
    ∧ (streamRun fmt anchorId [("Hello ", t1), ("World", t2)] t0).accumulated
        = "Hello World"
    ∧ (∀ a ∈ (streamRun fmt anchorId [("Hello ", t1), ("World", t2)] t0).acts,
        a = Act.edit 0 anchorId r)
    ∧ (∀ (sent : SentMap) (acc : String) (i mid : Nat) (c : String)
        (nextId : Nat),
        lookupSent sent i = some (mid, c) → (fmt acc).get? i = some c →
        ∀ a ∈ (update_messages fmt anchorId acc sent nextId).2.1,
          actIdx a ≠ i) := by
  have h6 : ¬ (2 ≤ t1 - t0 ∧ 50 < (("" ++ "Hello " : String)).length) := by
    intro h
    exact absurd h.2 (by decide)
  have h11 : ¬ (2 ≤ t2 - t0 ∧
      50 < ((("" ++ "Hello ") ++ "World" : String)).length) := by
    intro h
    exact absurd h.2 (by decide)
  have hacc : (("" ++ "Hello ") ++ "World" : String) = "Hello World" := rfl
  have hloop : streamLoop fmt anchorId [("Hello ", t1), ("World", t2)] ""
      t0 [] (anchorId + 1) = ([], [], anchorId + 1, "Hello World") := by
    rw [streamLoop]
    rw [if_neg h6]
    rw [streamLoop]
    rw [if_neg h11]
    rw [streamLoop, hacc]
  have hupd : update_messages fmt anchorId "Hello World" [] (anchorId + 1)
      = ([(0, (anchorId, r))], [Act.edit 0 anchorId r], anchorId + 1) := by
    rw [update_messages, hfmt, updLoop, if_pos rfl]
    simp [lookupSent, dictGet, setSent, dictSet, updLoop]
  have hfin : finalize_acts fmt [(0, (anchorId, r))] "Hello World"
      = [Act.edit 0 anchorId r] := by
    rw [finalize_acts, hfmt]
    simp [lookupSent, dictGet]
  have hrun : streamRun fmt anchorId [("Hello ", t1), ("World", t2)] t0
      = { sent := [(0, (anchorId, r))],
          acts := [Act.edit 0 anchorId r, Act.edit 0 anchorId r],
          accumulated := "Hello World", savedContent := "Hello World" } := by
    rw [streamRun, hloop]
    rw [if_pos (by decide : ("Hello World" : String) ≠ "")]
    rw [hupd]
    simp only [List.nil_append]
    rw [hfin]
    rfl
  refine ⟨by rw [hrun], by rw [hrun], ?_, ?_⟩
  · intro a ha
    rw [hrun] at ha
    simp only [List.mem_cons, List.mem_singleton] at ha
    rcases ha with h | h | h
    · exact h
    · exact h
    · simp at h
  · intro sent acc i mid c nextId hlk hget a ha
    exact updLoop_unchanged anchorId (fmt acc) 0 sent nextId i mid c hlk
      (by simpa using hget) (Nat.zero_le i) a ha

/-- Witness for C7 at a concrete input. -/
theorem stream_hello_world_witness :
    (streamRun (fun s => [s]) 7 [("Hello ", 0), ("World", 0)] 0).sent
        = [(0, (7, "Hello World"))]
    ∧ (streamRun (fun s => [s]) 7 [("Hello ", 0), ("World", 0)] 0).accumulated
        = "Hello World"
    ∧ (∀ a ∈ (streamRun (fun s => [s]) 7 [("Hello ", 0), ("World", 0)] 0).acts,
        a = Act.edit 0 7 "Hello World") := by
  have h := stream_hello_world (fun s => [s]) 7 "Hello World" rfl 0 0 0
  exact ⟨h.1, h.2.1, h.2.2.1⟩

/-- Counterexample to C8 as stated: a generation stream yielding zero
fragments with no failure raised is NOT reported as an "empty response" by
the engine — the run performs no outbound action at all and finalizes
silently, storing empty content on the assistant message. -/
theorem empty_stream_silent_cex :
    (streamRun (fun s => [s]) 7 [] 0).acts = []
    ∧ (streamRun (fun s => [s]) 7 [] 0).savedContent = "" := by
  constructor
  · simp [streamRun, streamLoop, finalize_acts, lookupSent, dictGet]
  · simp [streamRun, streamLoop]

/-- C8, amended: a zero-fragment stream with no failure raised is finalized
silently by `_generate_and_stream_response` — the in-stream update is
skipped (the accumulated text is empty), finalization finds no sent segment
to edit, so no outbound action happens and the assistant message is stored
with empty content; the engine reports no "empty response" condition.  The
only empty-stream notice in the repository is produced by the Perplexity
generation source itself, which yields a fallback fragment when its stream
ends without content (third conjunct). -/
theorem empty_stream_silent (fmt : String → List String) (anchorId : Nat)
    (t0 : ℚ) :
    (streamRun fmt anchorId [] t0).acts = []
    ∧ (streamRun fmt anchorId [] t0).savedContent = ""
    ∧ perplexity_yielded []
        = ["No response received (Stream ended empty)"] := by
  have hfin : finalize_acts fmt [] "" = [] := by
    simp only [finalize_acts]
    split
    · simp [lookupSent, dictGet]
    · rfl
  refine ⟨?_, ?_, rfl⟩
  · simp [streamRun, streamLoop, hfin]
  · simp [streamRun, streamLoop]

/-- Helper: a successful dict lookup means the (key, value) pair is an
entry. -/
theorem dictGet_mem {κ ν : Type} [BEq κ] [LawfulBEq κ]
    (d : List (κ × ν)) (k : κ) (v : ν) (h : dictGet d k = some v) :
    (k, v) ∈ d := by
  induction d with
  | nil => simp [dictGet] at h
  | cons e es ih =>
    obtain ⟨a, b⟩ := e
    rw [dictGet] at h
    by_cases he : a = k
    · rw [if_pos (by simpa using he)] at h
      have hv : b = v := by simpa using h
      rw [← he, ← hv]
      exact List.mem_cons_self _ _
    · rw [if_neg (by simpa using he)] at h
      exact List.mem_cons_of_mem _ (ih h)

/-- C9: the media-group debouncer.  (1) On the canonical timed trace — two
items at 0s and 1s (the second arrival cancels timer generation 0 and
schedules generation 1), the cancelled timer firing at 1.5s, the live timer
firing at 2.5s, a third item at 5s (after the flush), and its timer firing
at 6.5s — exactly two flushes happen: the first holding both early items in
arrival order, the second holding the late item alone.  (2) In general, an
item arrival cancels the pending timer: after the arrival, a firing of the
previously pending generation is a no-op.  (3) The flush handler is a no-op
for a key that is no longer buffered. -/
theorem media_group_debounce {I : Type} (k : String) (i1 i2 i3 : I) :
    (runMgEvents ({} : DebounceState I)
        [.add k i1 none 0, .add k i2 none 1, .fire k 0 (3/2), .fire k 1 (5/2),
         .add k i3 none 5, .fire k 2 (13/2)]).flushed
      = [(k, [i1, i2], none), (k, [i3], none)]
    ∧ (∀ (st : DebounceState I) (key : String) (item : I)
        (cap : Option String) (t : ℚ) (g : Nat) (ft : ℚ)
        (e : MediaGroupEntry I),
        lookupGroup st.buffer key = some e → e.task = some (g, ft) →
        gensBounded st →
        timer_fire (buffer_media_group st key item cap t) key g
          = buffer_media_group st key item cap t)
    ∧ (∀ (st : DebounceState I) (key : String),
        lookupGroup st.buffer key = none → finalize_media_group st key = st) := by
  refine ⟨?_, ?_, ?_⟩
  · simp [runMgEvents, buffer_media_group, timer_fire, finalize_media_group,
      lookupGroup, setGroup, eraseGroup, dictGet, dictSet, dictPop]
  · intro st key item cap t g ft e hlk htask hwf
    have hmem : (key, e) ∈ st.buffer := dictGet_mem st.buffer key e hlk
    have hgen : g < st.nextGen := hwf (key, e) hmem g ft htask
    have hlk' : lookupGroup (buffer_media_group st key item cap t).buffer key
        = some { files := e.files ++ [item],
                 caption := match cap, e.caption with
                   | some c, none => some c
                   | _, _ => e.caption,
                 task := some (st.nextGen, t + 3/2) } := by
      simp only [buffer_media_group, hlk, Option.getD_some]
      rw [lookupGroup, setGroup]
      exact dictGet_set_self st.buffer key _
    rw [timer_fire, hlk']
    dsimp only
    rw [if_neg (by omega)]
  · intro st key h
    simp [finalize_media_group, h]

/-- Witness for C9 at concrete inputs. -/
theorem media_group_debounce_witness :
    (runMgEvents ({} : DebounceState Nat)
        [.add "g" 1 none 0, .add "g" 2 none 1, .fire "g" 0 (3/2),
         .fire "g" 1 (5/2), .add "g" 3 none 5, .fire "g" 2 (13/2)]).flushed
      = [("g", [1, 2], none), ("g", [3], none)]
    ∧ timer_fire (buffer_media_group
        ⟨[("g", ⟨[7], none, some (0, 3/2)⟩)], 1, []⟩ "g" 8 none 1) "g" 0
      = buffer_media_group
        ⟨[("g", ⟨[7], none, some (0, 3/2)⟩)], 1, []⟩ "g" 8 none 1
    ∧ finalize_media_group ({} : DebounceState Nat) "g" = {} := by
  refine ⟨(media_group_debounce "g" 1 2 3).1, ?_, ?_⟩
  · refine (media_group_debounce "g" 1 2 3).2.1
      ⟨[("g", ⟨[7], none, some (0, 3/2)⟩)], 1, []⟩ "g" 8 none 1 0 (3/2)
      ⟨[7], none, some (0, 3/2)⟩ (by simp [lookupGroup, dictGet]) rfl ?_
    intro e he g ft ht
    simp only [List.mem_singleton] at he
    subst he
    dsimp only at ht
    rw [Option.some.injEq, Prod.mk.injEq] at ht
    obtain ⟨h1, h2⟩ := ht
    subst h1
    decide
  · exact (media_group_debounce "g" 1 2 3).2.2 {} "g" rfl

end TgBot
